import Mathlib

/-!
Verification of the job/unit progress-tracking subsystem
(`pkg/sources/job_progress_hook.go`): a bounded LRU-backed aggregator of
per-unit scanning metrics.  The Go code is shallowly embedded below; the
LRU cache (hashicorp/golang-lru/v2) and the small interface types
(`JobProgressRef`, `SourceUnit`, `Chunk`, `ChunkError`) that live outside
the hook file are modelled from their documented semantics.
-/

namespace TruffleHog

/-- Modelled from the spec: a chunk carries a byte payload whose length is
the only observable used by the aggregator (`len(chunk.Data)`). -/
structure Chunk where
  Data : List Nat
deriving DecidableEq

/-- Modelled from the spec: errors reported to the aggregator either carry a
unit-scoped wrapper (`ChunkError`, holding a possibly-absent unit) or not.
`errors.As(err, &chunkErr)` succeeds exactly on the wrapped form. -/
inductive Err where
  | plain (msg : String)
  | chunkError (unit : Option String) (msg : String)
deriving DecidableEq

/-- Modelled from the spec: the job-level snapshot exposed by
`JobProgressRef.Snapshot()`: job start/end time and accumulated errors. -/
structure JobSnapshot where
  StartTime : Option Int
  EndTime : Option Int
  Errors : List Err
deriving DecidableEq

/-- Modelled from the spec: a job reference holds the opaque integer source
and job identifiers and provides read access to the job-level snapshot.
A `SourceUnit` is modelled as `Option String`: `none` is a nil unit,
`some u` is a unit whose `SourceUnitID()` is `u`. -/
structure JobProgressRef where
  SourceID : Int
  JobID : Int
  snapshot : JobSnapshot
deriving DecidableEq

/-- The per-unit aggregate record (`UnitMetrics` in the Go source).
The Go counters are `uint64`; they are modelled as `Nat` since every
operation increments them by one chunk or one payload length at a time. -/
structure UnitMetrics where
  Unit : Option String
  Parent : JobProgressRef
  StartTime : Option Int
  EndTime : Option Int
  TotalChunks : Nat
  TotalBytes : Nat
  Errors : List Err
  handled : Bool
deriving DecidableEq

/-- Predicate `UnitMetrics.IsFinished`: the end time being set is the terminal signal. -/
def IsFinished (m : UnitMetrics) : Bool := m.EndTime.isSome

/-- Method `UnitMetrics.ElapsedTime`, with `time.Since` made explicit via a `now`
argument: 0 when not started, `now - start` while running, `end - start`
when finished. -/
def ElapsedTime (now : Int) (m : UnitMetrics) : Int :=
  match m.StartTime with
  | none => 0
  | some s =>
    match m.EndTime with
    | none => now - s
    | some e => e - s

/-! ### Decimal printing (the `%d` fields of `fmt.Sprintf("%d/%d/%s", ...)`) -/

/-- ASCII digit character for a single decimal digit. -/
def digitChar (d : Nat) : Char := Char.ofNat (48 + d)

/-- Fuel-driven decimal printer for naturals (structural, kernel-reducible). -/
def natDecAux : Nat → Nat → List Char
  | 0, _ => []
  | fuel + 1, n =>
    if n < 10 then [digitChar n]
    else natDecAux fuel (n / 10) ++ [digitChar (n % 10)]

/-- Decimal digits of a natural number, most significant first. -/
def natDec (n : Nat) : List Char := natDecAux (n + 1) n

/-- Decimal rendering of an integer, as Go's `%d` does for `int64`. -/
def intDec (i : Int) : List Char :=
  if i < 0 then '-' :: natDec (-i).toNat else natDec i.toNat

/-- Method `UnitHook.id`: the cache key `fmt.Sprintf("%d/%d/%s", SourceID, JobID,
unitID)` where `unitID` is `""` for a nil unit and `unit.SourceUnitID()`
otherwise. -/
def unitStr : Option String → String
  | none => ""
  | some u => u

def idKey (ref : JobProgressRef) (unit : Option String) : String :=
  String.mk (intDec ref.SourceID ++ ('/' :: (intDec ref.JobID ++ ('/' :: (unitStr unit).data))))

/-! ### The bounded LRU cache (hashicorp/golang-lru/v2 semantics)

The cache is a recency-ordered association list, most recently used first.
The eviction callback installed by `NewUnitHook` logs a diagnostic (modelled
as appending the evicted pair to `log`) unless the evicted value is marked
`handled`.  The callback fires on capacity eviction and on `Remove`. -/

structure UnitHook where
  entries : List (String × UnitMetrics)
  cap : Nat
  log : List (String × UnitMetrics)
deriving DecidableEq

/-- The eviction callback from `NewUnitHook`: silent when the value is
`handled`, otherwise it emits a "dropping unit metric" diagnostic. -/
def fireEvict (h : UnitHook) (k : String) (v : UnitMetrics) : UnitHook :=
  if v.handled then h else { h with log := h.log ++ [(k, v)] }

/-- Value stored at a key, if any (the `ok` view of `cache.Get` without the
recency side effect). -/
def lookup (h : UnitHook) (k : String) : Option UnitMetrics :=
  (h.entries.find? (fun e => e.1 == k)).map (fun e => e.2)

/-- Model of `cache.Get`: returns the stored value and refreshes the key's recency. -/
def cacheGet (h : UnitHook) (k : String) : Option UnitMetrics × UnitHook :=
  match h.entries.find? (fun e => e.1 == k) with
  | none => (none, h)
  | some e => (some e.2, { h with entries := e :: h.entries.filter (fun e2 => e2.1 != k) })

/-- Mutation of the stored value through the pointer returned by
`cache.Get`/`cache.Add` (no recency change of its own). -/
def modifyValue (h : UnitHook) (k : String) (f : UnitMetrics → UnitMetrics) : UnitHook :=
  { h with entries := h.entries.map (fun e => if e.1 == k then (e.1, f e.2) else e) }

/-- Model of `cache.Remove`: removes the entry and fires the eviction callback. -/
def cacheRemove (h : UnitHook) (k : String) : UnitHook :=
  match h.entries.find? (fun e => e.1 == k) with
  | none => h
  | some e => fireEvict { h with entries := h.entries.filter (fun e2 => e2.1 != k) } k e.2

/-- Model of `cache.Add`: updates an existing key in place (moving it to the front) or
inserts a fresh most-recent entry, evicting the least recently used entry,
with the callback, when the capacity is exceeded. -/
def cacheAdd (h : UnitHook) (k : String) (v : UnitMetrics) : UnitHook :=
  if h.entries.any (fun e => e.1 == k) then
    { h with entries := (k, v) :: h.entries.filter (fun e2 => e2.1 != k) }
  else
    let l := (k, v) :: h.entries
    if l.length > h.cap then
      match l.getLast? with
      | none => { h with entries := l }
      | some e => fireEvict { h with entries := l.dropLast } e.1 e.2
    else { h with entries := l }

/-- Model of `cache.Keys`: keys in recency order, least recently used first. -/
def cacheKeys (h : UnitHook) : List String := (h.entries.map (fun e => e.1)).reverse

/-- A hook over an empty cache of the given capacity (`WithUnitHookCache`). -/
def mkUnitHook (cap : Nat) : UnitHook := { entries := [], cap := cap, log := [] }

/-- Constructor `NewUnitHook`: default capacity 1024. -/
def NewUnitHook : UnitHook := mkUnitHook 1024

/-! ### The aggregator operations -/

/-- Method `UnitHook.StartUnitChunking`: unconditionally `Add`s a fresh record for
the derived key with the given start time. -/
def StartUnitChunking (h : UnitHook) (ref : JobProgressRef) (unit : Option String)
    (start : Int) : UnitHook :=
  cacheAdd h (idKey ref unit)
    { Unit := unit, Parent := ref, StartTime := some start, EndTime := none,
      TotalChunks := 0, TotalBytes := 0, Errors := [], handled := false }

/-- The recurring Go idiom `metrics, ok := cache.Get(id); if !ok return;
<mutate through the pointer>`: refresh recency and mutate the stored value,
no-op when the key is absent. -/
def getAndModify (h : UnitHook) (k : String) (f : UnitMetrics → UnitMetrics) : UnitHook :=
  match cacheGet h k with
  | (none, h1) => h1
  | (some _, h1) => modifyValue h1 k f

/-- Method `UnitHook.EndUnitChunking`: sets the end time on the resident entry,
no-op when the key is absent. -/
def EndUnitChunking (h : UnitHook) (ref : JobProgressRef) (unit : Option String)
    (endT : Int) : UnitHook :=
  getAndModify h (idKey ref unit) (fun m => { m with EndTime := some endT })

/-- The `TotalChunks++; TotalBytes += len(chunk.Data)` update. -/
def incChunk (c : Chunk) (m : UnitMetrics) : UnitMetrics :=
  { m with TotalChunks := m.TotalChunks + 1, TotalBytes := m.TotalBytes + c.Data.length }

/-- Method `UnitHook.ReportChunk`: counts the chunk into the resident entry; drops
the event when the key is absent and the unit is non-nil; lazily creates a
synthetic entry (start time from the job snapshot) when the unit is nil. -/
def ReportChunk (h : UnitHook) (ref : JobProgressRef) (unit : Option String)
    (c : Chunk) : UnitHook :=
  let k := idKey ref unit
  match cacheGet h k with
  | (some _, h1) => modifyValue h1 k (incChunk c)
  | (none, h1) =>
    match unit with
    | some _ => h1
    | none =>
      let m : UnitMetrics :=
        { Unit := none, Parent := ref, StartTime := ref.snapshot.StartTime,
          EndTime := none, TotalChunks := 0, TotalBytes := 0, Errors := [],
          handled := false }
      modifyValue (cacheAdd h1 k m) k (incChunk c)

/-- The `errors.As(err, &chunkErr)` probe: the wrapped unit when the error is
a `ChunkError`, `none` otherwise. -/
def chunkErrUnit : Err → Option (Option String)
  | Err.chunkError u _ => some u
  | Err.plain _ => none

/-- Appending one error to a record's error list. -/
def appendErr (e : Err) (m : UnitMetrics) : UnitMetrics :=
  { m with Errors := m.Errors ++ [e] }

/-- Method `UnitHook.ReportError`: always appends to the job's nil-unit entry when
resident; additionally appends to the wrapped unit's entry when the error is
a `ChunkError` and that entry is resident. -/
def ReportError (h : UnitHook) (ref : JobProgressRef) (err : Err) : UnitHook :=
  let h1 := getAndModify h (idKey ref none) (appendErr err)
  match chunkErrUnit err with
  | none => h1
  | some u => getAndModify h1 (idKey ref u) (appendErr err)

/-- Model of `strings.HasPrefix(s, p)`. -/
def hasPrefixS (s p : String) : Bool := p.data.isPrefixOf s.data

/-- One key's processing inside `UnitHook.Finish`: skip keys without the
job's nil-unit key as a prefix; for resident entries with a nil unit,
overwrite start/end/errors from the job snapshot. -/
def finishStep (ref : JobProgressRef) (h : UnitHook) (k : String) : UnitHook :=
  if hasPrefixS k (idKey ref none) then
    match cacheGet h k with
    | (none, h1) => h1
    | (some m, h1) =>
      if m.Unit == none then
        modifyValue h1 k (fun m2 =>
          { m2 with StartTime := ref.snapshot.StartTime,
                    EndTime := ref.snapshot.EndTime,
                    Errors := ref.snapshot.Errors })
      else h1
  else h

/-- Method `UnitHook.Finish`: scan the key snapshot for this job's prefix. -/
def Finish (h : UnitHook) (ref : JobProgressRef) : UnitHook :=
  (cacheKeys h).foldl (finishStep ref) h

/-- One key's processing inside `UnitHook.UnitMetrics`: copy the resident
value to the output; if it is finished, mark it handled and remove it. -/
def drainStep (acc : List UnitMetrics × UnitHook) (k : String) :
    List UnitMetrics × UnitHook :=
  match cacheGet acc.2 k with
  | (none, h1) => (acc.1, h1)
  | (some m, h1) =>
    if IsFinished m then
      (acc.1 ++ [m], cacheRemove (modifyValue h1 k (fun m2 => { m2 with handled := true })) k)
    else (acc.1 ++ [m], h1)

/-- Method `UnitHook.UnitMetrics` (named `unitMetricsRead` because the Go method
shares its name with the record type): the drain/snapshot read. -/
def unitMetricsRead (h : UnitHook) : List UnitMetrics × UnitHook :=
  (cacheKeys h).foldl drainStep ([], h)

/-- The public operations of the aggregator, as one step relation. -/
inductive Op where
  | start (ref : JobProgressRef) (unit : Option String) (t : Int)
  | endU (ref : JobProgressRef) (unit : Option String) (t : Int)
  | report (ref : JobProgressRef) (unit : Option String) (c : Chunk)
  | reportError (ref : JobProgressRef) (e : Err)
  | finish (ref : JobProgressRef)
  | drain
deriving DecidableEq

def Op.isStart : Op → Bool
  | .start _ _ _ => true
  | _ => false

def Op.isFinish : Op → Bool
  | .finish _ => true
  | _ => false

/-- Applying one public operation to the hook state. -/
def step (h : UnitHook) : Op → UnitHook
  | .start ref u t => StartUnitChunking h ref u t
  | .endU ref u t => EndUnitChunking h ref u t
  | .report ref u c => ReportChunk h ref u c
  | .reportError ref e => ReportError h ref e
  | .finish ref => Finish h ref
  | .drain => (unitMetricsRead h).2

/-! ### Derived definitions used by the statements -/

/-- Numeric value of a digit string, used to invert the decimal printer. -/
def digitsVal (l : List Char) : Nat := l.foldl (fun a c => 10 * a + (c.toNat - 48)) 0

/-- Total payload bytes of a list of chunks. -/
def chunksBytes (cs : List Chunk) : Nat := (cs.map (fun c => c.Data.length)).sum

/-- How many times `ReportError` appends the error at a given key: once for
the job's nil-unit key, plus once for the wrapped unit's key when the error
is a `ChunkError`. -/
def errHits (ref : JobProgressRef) (err : Err) (k : String) : Nat :=
  (if k = idKey ref none then 1 else 0) +
    (match chunkErrUnit err with
     | none => 0
     | some u => if k = idKey ref u then 1 else 0)

/-- The snapshot overwrite `Finish` applies to nil-unit entries. -/
def updSnap (ref : JobProgressRef) (m : UnitMetrics) : UnitMetrics :=
  { m with StartTime := ref.snapshot.StartTime, EndTime := ref.snapshot.EndTime,
           Errors := ref.snapshot.Errors }

/-! ### Concrete scenario data used by witnesses and counterexamples -/

def snap0 : JobSnapshot := { StartTime := some 3, EndTime := some 9, Errors := [Err.plain "boom"] }

def ref0 : JobProgressRef := { SourceID := 1, JobID := 2, snapshot := snap0 }

def refB : JobProgressRef := { SourceID := 3, JobID := 4, snapshot := snap0 }

def refNoEnd : JobProgressRef :=
  { SourceID := 1, JobID := 2, snapshot := { StartTime := some 3, EndTime := none, Errors := [] } }

def m0 : UnitMetrics :=
  { Unit := some "u", Parent := ref0, StartTime := some 0, EndTime := none,
    TotalChunks := 2, TotalBytes := 7, Errors := [], handled := false }

def m1 : UnitMetrics :=
  { Unit := some "u", Parent := ref0, StartTime := some 0, EndTime := some 8,
    TotalChunks := 2, TotalBytes := 7, Errors := [], handled := false }

def mNil : UnitMetrics :=
  { Unit := none, Parent := ref0, StartTime := some 0, EndTime := none,
    TotalChunks := 0, TotalBytes := 0, Errors := [Err.plain "x"], handled := false }

def hw : UnitHook := { entries := [(idKey ref0 (some "u"), m0)], cap := 4, log := [] }

def hwE : UnitHook := { entries := [(idKey ref0 (some "u"), m1)], cap := 4, log := [] }

def hwN : UnitHook := { entries := [(idKey ref0 none, mNil)], cap := 4, log := [] }

/-! ### Lemmas -/

theorem find?_filter_ne (l : List (String × UnitMetrics)) (k k' : String) (h : k ≠ k') :
    (l.filter (fun e => e.1 != k')).find? (fun e => e.1 == k) = l.find? (fun e => e.1 == k) := by
  induction l with
  | nil => rfl
  | cons a t ih =>
    by_cases ha : a.1 = k'
    · have h1 : (a.1 != k') = false := by simp [ha]
      have h2 : (a.1 == k) = false := by simp [ha]; exact fun hh => h hh.symm
      simp [List.filter_cons, h1, List.find?_cons, h2, ih]
    · have h1 : (a.1 != k') = true := by simp [ha]
      by_cases hk : a.1 = k
      · have h2 : (a.1 == k) = true := by simp [hk]
        simp [List.filter_cons, h1, List.find?_cons, h2]
      · have h2 : (a.1 == k) = false := by simp [hk]
        simp [List.filter_cons, h1, List.find?_cons, h2, ih]

theorem find?_filter_self (l : List (String × UnitMetrics)) (k : String) :
    (l.filter (fun e => e.1 != k)).find? (fun e => e.1 == k) = none := by
  induction l with
  | nil => rfl
  | cons a t ih =>
    by_cases ha : a.1 = k
    · have h1 : (a.1 != k) = false := by simp [ha]
      simp [List.filter_cons, h1, ih]
    · have h1 : (a.1 != k) = true := by simp [ha]
      have h2 : (a.1 == k) = false := by simp [ha]
      simp [List.filter_cons, h1, List.find?_cons, h2, ih]

theorem find?_modify_self (l : List (String × UnitMetrics)) (k : String)
    (f : UnitMetrics → UnitMetrics) :
    (l.map (fun e => if e.1 == k then (e.1, f e.2) else e)).find? (fun e => e.1 == k) =
      (l.find? (fun e => e.1 == k)).map (fun e => (e.1, f e.2)) := by
  induction l with
  | nil => rfl
  | cons a t ih =>
    by_cases ha : a.1 = k
    · have h1 : (a.1 == k) = true := by simp [ha]
      simp only [List.map_cons, if_pos h1]
      rw [List.find?_cons_of_pos (p := fun e : String × UnitMetrics => e.1 == k) _ (by simpa using h1),
        List.find?_cons_of_pos (p := fun e : String × UnitMetrics => e.1 == k) _ h1]
      rfl
    · have h1 : (a.1 == k) = false := by simp [ha]
      simp only [List.map_cons, if_neg (by simp [h1] : ¬ (a.1 == k) = true)]
      rw [List.find?_cons_of_neg (p := fun e : String × UnitMetrics => e.1 == k) _ (by simp [h1]),
        List.find?_cons_of_neg (p := fun e : String × UnitMetrics => e.1 == k) _ (by simp [h1])]
      exact ih

theorem find?_modify_ne (l : List (String × UnitMetrics)) (k k' : String)
    (f : UnitMetrics → UnitMetrics) (h : k ≠ k') :
    (l.map (fun e => if e.1 == k' then (e.1, f e.2) else e)).find? (fun e => e.1 == k) =
      l.find? (fun e => e.1 == k) := by
  induction l with
  | nil => rfl
  | cons a t ih =>
    by_cases ha : a.1 = k'
    · have h1 : (a.1 == k') = true := by simp [ha]
      have h2 : (a.1 == k) = false := by
        simp [ha]; exact fun hh => h hh.symm
      simp only [List.map_cons, if_pos h1]
      rw [List.find?_cons_of_neg (p := fun e : String × UnitMetrics => e.1 == k) _ (by simp [h2]),
        List.find?_cons_of_neg (p := fun e : String × UnitMetrics => e.1 == k) _ (by simp [h2])]
      exact ih
    · have h1 : ¬ (a.1 == k') = true := by simp [ha]
      simp only [List.map_cons, if_neg h1]
      by_cases hk : a.1 = k
      · have h2 : (a.1 == k) = true := by simp [hk]
        rw [List.find?_cons_of_pos (p := fun e : String × UnitMetrics => e.1 == k) _ h2,
          List.find?_cons_of_pos (p := fun e : String × UnitMetrics => e.1 == k) _ h2]
      · have h2 : (a.1 == k) = false := by simp [hk]
        rw [List.find?_cons_of_neg (p := fun e : String × UnitMetrics => e.1 == k) _ (by simp [h2]),
        List.find?_cons_of_neg (p := fun e : String × UnitMetrics => e.1 == k) _ (by simp [h2])]
        exact ih

theorem find?_dropLast_or (l : List (String × UnitMetrics))
    (p : String × UnitMetrics → Bool) :
    l.dropLast.find? p = l.find? p ∨ l.dropLast.find? p = none := by
  induction l with
  | nil => exact Or.inl rfl
  | cons a t ih =>
    cases t with
    | nil => exact Or.inr rfl
    | cons b t2 =>
      have hdl : (a :: b :: t2).dropLast = a :: (b :: t2).dropLast := rfl
      rw [hdl]
      by_cases hp : p a = true
      · left; simp [List.find?_cons, hp]
      · have hp2 : p a = false := by simpa using hp
        rcases ih with h1 | h1
        · left; simp [List.find?_cons, hp2, h1]
        · right; simp [List.find?_cons, hp2, h1]

theorem find?_moveToFront (l : List (String × UnitMetrics)) (k' k : String)
    (e : String × UnitMetrics) (hf : l.find? (fun e2 => e2.1 == k') = some e) :
    ((e :: l.filter (fun e2 => e2.1 != k')).find? (fun e2 => e2.1 == k)) =
      l.find? (fun e2 => e2.1 == k) := by
  have he : e.1 = k' := by
    have := List.find?_some hf
    simpa using this
  by_cases hk : k = k'
  · subst hk
    rw [List.find?_cons_of_pos (p := fun e2 : String × UnitMetrics => e2.1 == k) _ (by simp [he]),
      hf]
  · rw [List.find?_cons_of_neg (p := fun e2 : String × UnitMetrics => e2.1 == k) _
      (by simp [he]; exact fun hh => hk hh.symm)]
    exact find?_filter_ne l k k' hk

theorem entries_fireEvict (h : UnitHook) (k : String) (v : UnitMetrics) :
    (fireEvict h k v).entries = h.entries := by
  unfold fireEvict; split <;> rfl

theorem log_fireEvict (h : UnitHook) (k : String) (v : UnitMetrics) :
    (fireEvict h k v).log = h.log ++ (if v.handled then [] else [(k, v)]) := by
  unfold fireEvict; split <;> simp_all

theorem fireEvict_handled (h : UnitHook) (k : String) (v : UnitMetrics)
    (hv : v.handled = true) : fireEvict h k v = h := by
  unfold fireEvict; simp [hv]

theorem lookup_fireEvict (h : UnitHook) (k' k : String) (v : UnitMetrics) :
    lookup (fireEvict h k' v) k = lookup h k := by
  unfold lookup
  rw [entries_fireEvict]

theorem cacheGet_fst (h : UnitHook) (k : String) :
    (cacheGet h k).1 = lookup h k := by
  unfold cacheGet lookup
  cases hf : h.entries.find? (fun e => e.1 == k) <;> simp [hf]

theorem lookup_cacheGet (h : UnitHook) (k' k : String) :
    lookup (cacheGet h k').2 k = lookup h k := by
  unfold cacheGet
  cases hf : h.entries.find? (fun e => e.1 == k') with
  | none => rfl
  | some e =>
    show lookup { h with entries := e :: h.entries.filter (fun e2 => e2.1 != k') } k = lookup h k
    unfold lookup
    exact congrArg _ (find?_moveToFront h.entries k' k e hf)

theorem log_cacheGet (h : UnitHook) (k : String) :
    (cacheGet h k).2.log = h.log := by
  unfold cacheGet
  cases hf : h.entries.find? (fun e => e.1 == k) <;> rfl

theorem cap_cacheGet (h : UnitHook) (k : String) :
    (cacheGet h k).2.cap = h.cap := by
  unfold cacheGet
  cases hf : h.entries.find? (fun e => e.1 == k) <;> rfl

theorem lookup_modifyValue_self (h : UnitHook) (k : String) (f : UnitMetrics → UnitMetrics) :
    lookup (modifyValue h k f) k = (lookup h k).map f := by
  unfold lookup modifyValue
  rw [find?_modify_self]
  cases h.entries.find? (fun e => e.1 == k) <;> rfl

theorem lookup_modifyValue_ne (h : UnitHook) (k' k : String) (f : UnitMetrics → UnitMetrics)
    (hne : k ≠ k') : lookup (modifyValue h k' f) k = lookup h k := by
  unfold lookup modifyValue
  rw [find?_modify_ne _ _ _ _ hne]

theorem log_modifyValue (h : UnitHook) (k : String) (f : UnitMetrics → UnitMetrics) :
    (modifyValue h k f).log = h.log := rfl

theorem lookup_cacheRemove_self (h : UnitHook) (k : String) :
    lookup (cacheRemove h k) k = none := by
  unfold cacheRemove
  cases hf : h.entries.find? (fun e => e.1 == k) with
  | none =>
    unfold lookup
    simp [hf]
  | some e =>
    unfold lookup
    rw [entries_fireEvict]
    simp [find?_filter_self]

theorem lookup_cacheRemove_ne (h : UnitHook) (k' k : String) (hne : k ≠ k') :
    lookup (cacheRemove h k') k = lookup h k := by
  unfold cacheRemove
  cases hf : h.entries.find? (fun e => e.1 == k') with
  | none => rfl
  | some e =>
    unfold lookup
    rw [entries_fireEvict]
    exact congrArg _ (find?_filter_ne h.entries k k' hne)

theorem any_eq_false_of_find?_none (l : List (String × UnitMetrics)) (k : String)
    (hf : l.find? (fun e => e.1 == k) = none) : l.any (fun e => e.1 == k) = false := by
  rw [List.find?_eq_none] at hf
  simp only [List.any_eq_false]
  intro e he
  exact fun hx => hf e he hx

theorem lookup_cacheAdd_self (h : UnitHook) (k : String) (v : UnitMetrics)
    (hcap : 1 ≤ h.cap) : lookup (cacheAdd h k v) k = some v := by
  unfold cacheAdd
  by_cases hp : h.entries.any (fun e => e.1 == k) = true
  · rw [if_pos hp]
    unfold lookup
    rw [List.find?_cons_of_pos (p := fun e2 : String × UnitMetrics => e2.1 == k) _ (by simp)]
    rfl
  · rw [if_neg hp]
    by_cases hlen : ((k, v) :: h.entries).length > h.cap
    · rw [if_pos hlen]
      cases hent : h.entries with
      | nil =>
        rw [hent] at hlen
        simp at hlen
        omega
      | cons b t =>
        rw [List.getLast?_cons_cons]
        have hbt : (b :: t).getLast?.isSome = true := List.getLast?_isSome.mpr (by simp)
        rcases Option.isSome_iff_exists.mp hbt with ⟨e, he⟩
        rw [he]
        unfold lookup
        rw [entries_fireEvict]
        show (((k, v) :: b :: t).dropLast.find? (fun e2 => e2.1 == k)).map (fun e => e.2) = some v
        rw [List.dropLast_cons₂]
        rw [List.find?_cons_of_pos (p := fun e2 : String × UnitMetrics => e2.1 == k) _ (by simp)]
        rfl
    · rw [if_neg hlen]
      unfold lookup
      rw [List.find?_cons_of_pos (p := fun e2 : String × UnitMetrics => e2.1 == k) _ (by simp)]
      rfl

theorem lookup_cacheAdd_ne (h : UnitHook) (k' k : String) (v : UnitMetrics)
    (hne : k ≠ k') :
    lookup (cacheAdd h k' v) k = lookup h k ∨ lookup (cacheAdd h k' v) k = none := by
  unfold cacheAdd
  by_cases hp : h.entries.any (fun e => e.1 == k') = true
  · left
    rw [if_pos hp]
    unfold lookup
    rw [List.find?_cons_of_neg (p := fun e2 : String × UnitMetrics => e2.1 == k) _
      (by simp; exact fun hh => hne hh.symm)]
    exact congrArg _ (find?_filter_ne h.entries k k' hne)
  · rw [if_neg hp]
    by_cases hlen : ((k', v) :: h.entries).length > h.cap
    · rw [if_pos hlen]
      cases hl : ((k', v) :: h.entries).getLast? with
      | none => simp at hl
      | some e =>
        unfold lookup
        rw [entries_fireEvict]
        have hstep : ((k', v) :: h.entries).dropLast.find? (fun e2 => e2.1 == k) =
            ((k', v) :: h.entries).find? (fun e2 => e2.1 == k) ∨
            ((k', v) :: h.entries).dropLast.find? (fun e2 => e2.1 == k) = none :=
          find?_dropLast_or _ _
        rcases hstep with h1 | h1
        · rw [h1]
          left
          rw [List.find?_cons_of_neg (p := fun e2 : String × UnitMetrics => e2.1 == k) _
            (by simp; exact fun hh => hne hh.symm)]
        · rw [h1]
          right
          rfl
    · rw [if_neg hlen]
      left
      unfold lookup
      rw [List.find?_cons_of_neg (p := fun e2 : String × UnitMetrics => e2.1 == k) _
        (by simp; exact fun hh => hne hh.symm)]

theorem cacheGet_eq (h : UnitHook) (k : String) :
    cacheGet h k = (lookup h k, (cacheGet h k).2) := by
  rw [← cacheGet_fst]

theorem cacheGet_snd_of_miss (h : UnitHook) (k : String) (hm : lookup h k = none) :
    (cacheGet h k).2 = h := by
  have hf : h.entries.find? (fun e => e.1 == k) = none := by
    unfold lookup at hm
    exact Option.map_eq_none'.mp hm
  unfold cacheGet
  rw [hf]

theorem find?_of_lookup_some (h : UnitHook) (k : String) (m : UnitMetrics)
    (hm : lookup h k = some m) :
    ∃ e, h.entries.find? (fun e2 => e2.1 == k) = some e ∧ e.2 = m := by
  unfold lookup at hm
  cases hf : h.entries.find? (fun e2 => e2.1 == k) with
  | none => rw [hf] at hm; simp at hm
  | some e =>
    rw [hf] at hm
    exact ⟨e, rfl, by simpa using hm⟩

theorem lookup_getAndModify_self (h : UnitHook) (k : String) (f : UnitMetrics → UnitMetrics) :
    lookup (getAndModify h k f) k = (lookup h k).map f := by
  unfold getAndModify
  rw [cacheGet_eq]
  cases hm : lookup h k with
  | none =>
    rw [cacheGet_snd_of_miss h _ hm]
    dsimp only
    simp [hm]
  | some m =>
    dsimp only
    rw [lookup_modifyValue_self, lookup_cacheGet, hm]

theorem lookup_getAndModify_ne (h : UnitHook) (k' k : String) (f : UnitMetrics → UnitMetrics)
    (hne : k ≠ k') : lookup (getAndModify h k' f) k = lookup h k := by
  unfold getAndModify
  rw [cacheGet_eq]
  cases hm : lookup h k' with
  | none =>
    rw [cacheGet_snd_of_miss h _ hm]
  | some m =>
    dsimp only
    rw [lookup_modifyValue_ne _ _ _ _ hne, lookup_cacheGet]

theorem log_getAndModify (h : UnitHook) (k : String) (f : UnitMetrics → UnitMetrics) :
    (getAndModify h k f).log = h.log := by
  unfold getAndModify
  rw [cacheGet_eq]
  cases hm : lookup h k with
  | none => rw [cacheGet_snd_of_miss h _ hm]
  | some m =>
    dsimp only
    rw [log_modifyValue, log_cacheGet]

theorem lookup_End_self (h : UnitHook) (ref : JobProgressRef) (unit : Option String) (t : Int) :
    lookup (EndUnitChunking h ref unit t) (idKey ref unit) =
      (lookup h (idKey ref unit)).map (fun m => { m with EndTime := some t }) :=
  lookup_getAndModify_self h _ _

theorem lookup_End_ne (h : UnitHook) (ref : JobProgressRef) (unit : Option String) (t : Int)
    (k : String) (hne : k ≠ idKey ref unit) :
    lookup (EndUnitChunking h ref unit t) k = lookup h k :=
  lookup_getAndModify_ne h _ k _ hne

theorem lookup_Report_hit (h : UnitHook) (ref : JobProgressRef) (unit : Option String)
    (c : Chunk) (m : UnitMetrics) (hm : lookup h (idKey ref unit) = some m) :
    lookup (ReportChunk h ref unit c) (idKey ref unit) = some (incChunk c m) := by
  unfold ReportChunk
  dsimp only
  rw [cacheGet_eq, hm]
  dsimp only
  rw [lookup_modifyValue_self, lookup_cacheGet, hm]
  rfl

theorem lookup_Report_ne (h : UnitHook) (ref : JobProgressRef) (unit : Option String)
    (c : Chunk) (k : String) (hne : k ≠ idKey ref unit) :
    lookup (ReportChunk h ref unit c) k = lookup h k ∨
      lookup (ReportChunk h ref unit c) k = none := by
  unfold ReportChunk
  dsimp only
  rw [cacheGet_eq]
  cases hm : lookup h (idKey ref unit) with
  | some m =>
    dsimp only
    left
    rw [lookup_modifyValue_ne _ _ _ _ hne, lookup_cacheGet]
  | none =>
    rw [cacheGet_snd_of_miss h _ hm]
    cases unit with
    | some u =>
      dsimp only
      left
      rfl
    | none =>
      dsimp only
      rw [lookup_modifyValue_ne _ _ _ _ hne]
      exact lookup_cacheAdd_ne h _ k _ hne

theorem lookup_Report_synthetic (h : UnitHook) (ref : JobProgressRef) (c : Chunk)
    (hm : lookup h (idKey ref none) = none) (hcap : 1 ≤ h.cap) :
    lookup (ReportChunk h ref none c) (idKey ref none) =
      some { Unit := none, Parent := ref, StartTime := ref.snapshot.StartTime,
             EndTime := none, TotalChunks := 1, TotalBytes := c.Data.length,
             Errors := [], handled := false } := by
  unfold ReportChunk
  dsimp only
  rw [cacheGet_eq, hm, cacheGet_snd_of_miss h _ hm]
  dsimp only
  rw [lookup_modifyValue_self, lookup_cacheAdd_self _ _ _ hcap]
  simp [incChunk]

theorem map_append_nil (o : Option UnitMetrics) (err : Err) :
    o.map (fun m => { m with Errors := m.Errors ++ List.replicate 0 err }) = o := by
  cases o <;> simp

theorem lookup_ReportError (h : UnitHook) (ref : JobProgressRef) (err : Err) (k : String) :
    lookup (ReportError h ref err) k =
      (lookup h k).map
        (fun m => { m with Errors := m.Errors ++ List.replicate (errHits ref err k) err }) := by
  unfold ReportError errHits
  cases hce : chunkErrUnit err with
  | none =>
    dsimp only
    by_cases hk : k = idKey ref none
    · subst hk
      rw [lookup_getAndModify_self]
      simp only [if_pos rfl]
      rfl
    · rw [lookup_getAndModify_ne _ _ _ _ hk]
      rw [if_neg hk]
      exact (map_append_nil _ err).symm
  | some u =>
    dsimp only
    by_cases hkn : k = idKey ref none
    · subst hkn
      by_cases hku : idKey ref none = idKey ref u
      · rw [if_pos rfl, if_pos hku, ← hku]
        rw [lookup_getAndModify_self, lookup_getAndModify_self]
        cases lookup h (idKey ref none) <;> simp [appendErr, List.replicate]
      · rw [if_pos rfl, if_neg hku]
        rw [lookup_getAndModify_ne _ _ _ _ hku, lookup_getAndModify_self]
        cases lookup h (idKey ref none) <;> simp [appendErr, List.replicate]
    · by_cases hku : k = idKey ref u
      · subst hku
        rw [if_neg hkn, if_pos rfl]
        rw [lookup_getAndModify_self, lookup_getAndModify_ne _ _ _ _ hkn]
        cases lookup h (idKey ref u) <;> simp [appendErr, List.replicate]
      · rw [if_neg hkn, if_neg hku]
        rw [lookup_getAndModify_ne _ _ _ _ hku, lookup_getAndModify_ne _ _ _ _ hkn]
        exact (map_append_nil _ err).symm

theorem hasPrefixS_self (s : String) : hasPrefixS s s = true := by
  unfold hasPrefixS
  rw [ List.isPrefixOf_iff_prefix]

theorem lookup_finishStep_or (ref : JobProgressRef) (h : UnitHook) (k' k : String) :
    lookup (finishStep ref h k') k = lookup h k ∨
      lookup (finishStep ref h k') k = (lookup h k).map (updSnap ref) := by
  unfold finishStep
  by_cases hpre : hasPrefixS k' (idKey ref none) = true
  · rw [if_pos hpre, cacheGet_eq]
    cases hm : lookup h k' with
    | none =>
      rw [cacheGet_snd_of_miss h _ hm]
      exact Or.inl rfl
    | some m =>
      dsimp only
      by_cases hu : (m.Unit == none) = true
      · rw [if_pos hu]
        by_cases hk : k = k'
        · subst hk
          right
          rw [lookup_modifyValue_self, lookup_cacheGet]
          rfl
        · left
          rw [lookup_modifyValue_ne _ _ _ _ hk, lookup_cacheGet]
      · rw [if_neg hu]
        left
        rw [lookup_cacheGet]
  · rw [if_neg hpre]
    exact Or.inl rfl

theorem lookup_finishStep_ne (ref : JobProgressRef) (h : UnitHook) (k' k : String)
    (hne : k ≠ k') : lookup (finishStep ref h k') k = lookup h k := by
  unfold finishStep
  by_cases hpre : hasPrefixS k' (idKey ref none) = true
  · rw [if_pos hpre, cacheGet_eq]
    cases hm : lookup h k' with
    | none => rw [cacheGet_snd_of_miss h _ hm]
    | some m =>
      dsimp only
      by_cases hu : (m.Unit == none) = true
      · rw [if_pos hu]
        rw [lookup_modifyValue_ne _ _ _ _ hne, lookup_cacheGet]
      · rw [if_neg hu]
        rw [lookup_cacheGet]
  · rw [if_neg hpre]

theorem map_updSnap_idem (ref : JobProgressRef) (o : Option UnitMetrics) :
    (o.map (updSnap ref)).map (updSnap ref) = o.map (updSnap ref) := by
  cases o <;> simp [updSnap]

theorem lookup_foldl_finish_or (ref : JobProgressRef) (k : String) :
    ∀ (ks : List String) (h : UnitHook),
      lookup (ks.foldl (finishStep ref) h) k = lookup h k ∨
        lookup (ks.foldl (finishStep ref) h) k = (lookup h k).map (updSnap ref) := by
  intro ks
  induction ks with
  | nil => intro h; exact Or.inl rfl
  | cons a t ih =>
    intro h
    rw [List.foldl_cons]
    rcases ih (finishStep ref h a) with h1 | h1 <;>
      rcases lookup_finishStep_or ref h a k with h2 | h2
    · left; rw [h1, h2]
    · right; rw [h1, h2]
    · right; rw [h1, h2]
    · right; rw [h1, h2, map_updSnap_idem]

theorem lookup_foldl_finish_notmem (ref : JobProgressRef) (k : String) :
    ∀ (ks : List String) (h : UnitHook), k ∉ ks →
      lookup (ks.foldl (finishStep ref) h) k = lookup h k := by
  intro ks
  induction ks with
  | nil => intro h _; rfl
  | cons a t ih =>
    intro h hmem
    rw [List.foldl_cons]
    have h1 : k ≠ a := fun hh => hmem (by simp [hh])
    have h2 : k ∉ t := fun hh => hmem (by simp [hh])
    rw [ih _ h2, lookup_finishStep_ne _ _ _ _ h1]

theorem lookup_finishStep_done (ref : JobProgressRef) (h : UnitHook) (m : UnitMetrics)
    (hm : lookup h (idKey ref none) = some m) (hu : m.Unit = none) :
    lookup (finishStep ref h (idKey ref none)) (idKey ref none) = some (updSnap ref m) := by
  unfold finishStep
  rw [if_pos (hasPrefixS_self _), cacheGet_eq, hm]
  dsimp only
  rw [if_pos (by simp [hu])]
  rw [lookup_modifyValue_self, lookup_cacheGet, hm]
  rfl

theorem lookup_foldl_finish_done (ref : JobProgressRef) :
    ∀ (ks : List String) (h : UnitHook) (m : UnitMetrics),
      lookup h (idKey ref none) = some m → m.Unit = none → idKey ref none ∈ ks →
      lookup (ks.foldl (finishStep ref) h) (idKey ref none) = some (updSnap ref m) := by
  intro ks
  induction ks with
  | nil => intro h m _ _ hmem; simp at hmem
  | cons a t ih =>
    intro h m hm hu hmem
    rw [List.foldl_cons]
    by_cases ha : a = idKey ref none
    · subst ha
      have hstep := lookup_finishStep_done ref h m hm hu
      by_cases hmem2 : idKey ref none ∈ t
      · have hres := ih _ _ hstep (by simp [updSnap, hu]) hmem2
        rw [hres]
        rfl
      · rw [lookup_foldl_finish_notmem ref _ t _ hmem2, hstep]
    · have hmem2 : idKey ref none ∈ t := by
        rcases List.mem_cons.mp hmem with h1 | h1
        · exact absurd h1.symm ha
        · exact h1
      have hpres : lookup (finishStep ref h a) (idKey ref none) = some m := by
        rw [lookup_finishStep_ne ref h a _ (fun hh => ha hh.symm), hm]
      exact ih _ _ hpres hu hmem2

theorem mem_cacheKeys_of_lookup_some (h : UnitHook) (k : String) (m : UnitMetrics)
    (hm : lookup h k = some m) : k ∈ cacheKeys h := by
  rcases find?_of_lookup_some h k m hm with ⟨e, he, _⟩
  have hmem := List.mem_of_find?_eq_some he
  have hk : e.1 = k := by
    have := List.find?_some he
    simpa using this
  unfold cacheKeys
  rw [List.mem_reverse]
  exact hk ▸ List.mem_map_of_mem _ hmem

theorem lookup_Finish_done (h : UnitHook) (ref : JobProgressRef) (m : UnitMetrics)
    (hm : lookup h (idKey ref none) = some m) (hu : m.Unit = none) :
    lookup (Finish h ref) (idKey ref none) = some (updSnap ref m) := by
  unfold Finish
  exact lookup_foldl_finish_done ref (cacheKeys h) h m hm hu
    (mem_cacheKeys_of_lookup_some h _ m hm)

theorem lookup_Finish_or (h : UnitHook) (ref : JobProgressRef) (k : String) :
    lookup (Finish h ref) k = lookup h k ∨
      lookup (Finish h ref) k = (lookup h k).map (updSnap ref) := by
  unfold Finish
  exact lookup_foldl_finish_or ref k (cacheKeys h) h

theorem lookup_drainStep_or (acc : List UnitMetrics × UnitHook) (k' k : String) :
    lookup (drainStep acc k').2 k = lookup acc.2 k ∨
      lookup (drainStep acc k').2 k = none := by
  unfold drainStep
  rw [cacheGet_eq]
  cases hm : lookup acc.2 k' with
  | none =>
    rw [cacheGet_snd_of_miss _ _ hm]
    exact Or.inl rfl
  | some m =>
    dsimp only
    by_cases hfin : IsFinished m = true
    · rw [if_pos hfin]
      dsimp only
      by_cases hk : k = k'
      · subst hk
        right
        exact lookup_cacheRemove_self _ _
      · left
        rw [lookup_cacheRemove_ne _ _ _ hk, lookup_modifyValue_ne _ _ _ _ hk, lookup_cacheGet]
    · rw [if_neg hfin]
      left
      rw [lookup_cacheGet]

theorem lookup_foldl_drain_or (k : String) :
    ∀ (ks : List String) (acc : List UnitMetrics × UnitHook),
      lookup (ks.foldl drainStep acc).2 k = lookup acc.2 k ∨
        lookup (ks.foldl drainStep acc).2 k = none := by
  intro ks
  induction ks with
  | nil => intro acc; exact Or.inl rfl
  | cons a t ih =>
    intro acc
    rw [List.foldl_cons]
    rcases ih (drainStep acc a) with h1 | h1
    · rcases lookup_drainStep_or acc a k with h2 | h2
      · left; rw [h1, h2]
      · right; rw [h1, h2]
    · right; exact h1

theorem lookup_unitMetricsRead_or (h : UnitHook) (k : String) :
    lookup (unitMetricsRead h).2 k = lookup h k ∨
      lookup (unitMetricsRead h).2 k = none := by
  unfold unitMetricsRead
  exact lookup_foldl_drain_or k (cacheKeys h) ([], h)

theorem log_drainStep (acc : List UnitMetrics × UnitHook) (k' : String) :
    (drainStep acc k').2.log = acc.2.log := by
  unfold drainStep
  rw [cacheGet_eq]
  cases hm : lookup acc.2 k' with
  | none => rw [cacheGet_snd_of_miss _ _ hm]
  | some m =>
    dsimp only
    by_cases hfin : IsFinished m = true
    · rw [if_pos hfin]
      dsimp only
      have hl : lookup (modifyValue (cacheGet acc.2 k').2 k'
          (fun m2 => { m2 with handled := true })) k' = some { m with handled := true } := by
        rw [lookup_modifyValue_self, lookup_cacheGet, hm]
        rfl
      rcases find?_of_lookup_some _ _ _ hl with ⟨e, he, he2⟩
      unfold cacheRemove
      rw [he]
      dsimp only
      rw [fireEvict_handled _ _ _ (by rw [he2])]
      dsimp only
      rw [log_modifyValue, log_cacheGet]
    · rw [if_neg hfin]
      dsimp only
      exact log_cacheGet _ _

theorem log_foldl_drain : ∀ (ks : List String) (acc : List UnitMetrics × UnitHook),
    (ks.foldl drainStep acc).2.log = acc.2.log := by
  intro ks
  induction ks with
  | nil => intro acc; rfl
  | cons a t ih =>
    intro acc
    rw [List.foldl_cons, ih, log_drainStep]

theorem log_unitMetricsRead (h : UnitHook) : (unitMetricsRead h).2.log = h.log := by
  unfold unitMetricsRead
  exact log_foldl_drain (cacheKeys h) ([], h)

theorem digitChar_toNat : ∀ d, d < 10 → (digitChar d).toNat = 48 + d := by decide

theorem digitChar_ne_slash : ∀ d, d < 10 → digitChar d ≠ '/' := by decide

theorem digitChar_ne_dash : ∀ d, d < 10 → digitChar d ≠ '-' := by decide

theorem natDecAux_val : ∀ (f n : Nat), n < f → digitsVal (natDecAux f n) = n := by
  intro f
  induction f with
  | zero => intro n h; omega
  | succ f ih =>
    intro n h
    unfold natDecAux
    by_cases h10 : n < 10
    · rw [if_pos h10]
      show 10 * 0 + ((digitChar n).toNat - 48) = n
      rw [digitChar_toNat n h10]
      omega
    · rw [if_neg h10]
      have hn10 : n / 10 < f := by
        have h1 : n / 10 < n := Nat.div_lt_self (by omega) (by omega)
        omega
      have hmod : n % 10 < 10 := Nat.mod_lt _ (by omega)
      unfold digitsVal
      rw [List.foldl_append]
      show 10 * digitsVal (natDecAux f (n / 10)) + ((digitChar (n % 10)).toNat - 48) = n
      rw [ih _ hn10, digitChar_toNat _ hmod]
      omega

theorem natDec_val (n : Nat) : digitsVal (natDec n) = n :=
  natDecAux_val _ _ (Nat.lt_succ_self n)

theorem natDec_inj (a b : Nat) (h : natDec a = natDec b) : a = b := by
  rw [← natDec_val a, ← natDec_val b, h]

theorem natDecAux_chars : ∀ (f n : Nat) (c : Char), c ∈ natDecAux f n →
    ∃ d, d < 10 ∧ c = digitChar d := by
  intro f
  induction f with
  | zero => intro n c hc; simp [natDecAux] at hc
  | succ f ih =>
    intro n c hc
    unfold natDecAux at hc
    by_cases h10 : n < 10
    · rw [if_pos h10] at hc
      simp at hc
      exact ⟨n, h10, hc⟩
    · rw [if_neg h10] at hc
      rw [List.mem_append] at hc
      rcases hc with hc | hc
      · exact ih _ _ hc
      · simp at hc
        exact ⟨n % 10, Nat.mod_lt _ (by omega), hc⟩

theorem slash_not_mem_natDec (n : Nat) : '/' ∉ natDec n := by
  intro hc
  rcases natDecAux_chars _ _ _ hc with ⟨d, hd, hcd⟩
  exact digitChar_ne_slash d hd hcd.symm

theorem dash_not_mem_natDec (n : Nat) : '-' ∉ natDec n := by
  intro hc
  rcases natDecAux_chars _ _ _ hc with ⟨d, hd, hcd⟩
  exact digitChar_ne_dash d hd hcd.symm

theorem slash_not_mem_intDec (i : Int) : '/' ∉ intDec i := by
  unfold intDec
  split
  · intro hc
    rcases List.mem_cons.mp hc with h1 | h1
    · exact absurd h1 (by decide)
    · exact slash_not_mem_natDec _ h1
  · exact slash_not_mem_natDec _

theorem intDec_inj (i j : Int) (h : intDec i = intDec j) : i = j := by
  unfold intDec at h
  by_cases hi : i < 0 <;> by_cases hj : j < 0
  · rw [if_pos hi, if_pos hj] at h
    simp only [List.cons.injEq] at h
    have h2 := natDec_inj _ _ h.2
    omega
  · rw [if_pos hi, if_neg hj] at h
    have hd : '-' ∈ natDec j.toNat := by
      rw [← h]
      exact List.mem_cons_self _ _
    exact absurd hd (dash_not_mem_natDec _)
  · rw [if_neg hi, if_pos hj] at h
    have hd : '-' ∈ natDec i.toNat := by
      rw [h]
      exact List.mem_cons_self _ _
    exact absurd hd (dash_not_mem_natDec _)
  · rw [if_neg hi, if_neg hj] at h
    have h2 := natDec_inj _ _ h
    omega

theorem str_ext (s t : String) (h : s.data = t.data) : s = t := by
  cases s
  cases t
  exact congrArg String.mk h

theorem seg_inj : ∀ (a a' r r' : List Char), '/' ∉ a → '/' ∉ a' →
    a ++ '/' :: r = a' ++ '/' :: r' → a = a' ∧ r = r' := by
  intro a
  induction a with
  | nil =>
    intro a' r r' _ ha' heq
    cases a' with
    | nil =>
      simp at heq
      exact ⟨rfl, heq⟩
    | cons c t =>
      simp at heq
      exact absurd (by simp [← heq.1]) ha'
  | cons c t ih =>
    intro a' r r' ha ha' heq
    cases a' with
    | nil =>
      simp at heq
      exact absurd (by simp [heq.1]) ha
    | cons c' t' =>
      simp at heq
      have hm : '/' ∉ t := fun hh => ha (List.mem_cons_of_mem _ hh)
      have hm' : '/' ∉ t' := fun hh => ha' (List.mem_cons_of_mem _ hh)
      rcases ih t' r r' hm hm' heq.2 with ⟨h1, h2⟩
      exact ⟨by rw [heq.1, h1], h2⟩

theorem prefix_seg : ∀ (a a' r r' : List Char), '/' ∉ a → '/' ∉ a' →
    (a ++ '/' :: r) <+: (a' ++ '/' :: r') → a = a' ∧ r <+: r' := by
  intro a
  induction a with
  | nil =>
    intro a' r r' _ ha' hp
    cases a' with
    | nil =>
      constructor
      · rfl
      · simp only [List.nil_append] at hp
        rw [List.cons_prefix_cons] at hp
        exact hp.2
    | cons c t =>
      simp only [List.nil_append, List.cons_append] at hp
      rw [List.cons_prefix_cons] at hp
      exact absurd (by simp [← hp.1]) ha'
  | cons c t ih =>
    intro a' r r' ha ha' hp
    cases a' with
    | nil =>
      simp only [List.nil_append, List.cons_append] at hp
      rw [List.cons_prefix_cons] at hp
      exact absurd (by simp [hp.1]) ha
    | cons c' t' =>
      simp only [List.cons_append] at hp
      rw [List.cons_prefix_cons] at hp
      have hm : '/' ∉ t := fun hh => ha (List.mem_cons_of_mem _ hh)
      have hm' : '/' ∉ t' := fun hh => ha' (List.mem_cons_of_mem _ hh)
      rcases ih t' r r' hm hm' hp.2 with ⟨h1, h2⟩
      exact ⟨by rw [hp.1, h1], h2⟩

theorem idKey_data (r : JobProgressRef) (u : Option String) :
    (idKey r u).data = intDec r.SourceID ++ '/' :: (intDec r.JobID ++ '/' :: (unitStr u).data) :=
  rfl

theorem unitStr_inj (u u' : Option String) (hu : u ≠ some "") (hu' : u' ≠ some "")
    (h : (unitStr u).data = (unitStr u').data) : u = u' := by
  have hs : unitStr u = unitStr u' := str_ext _ _ h
  cases u with
  | none =>
    cases u' with
    | none => rfl
    | some x =>
      exact absurd (by rw [show x = "" from hs.symm]) hu'
  | some x =>
    cases u' with
    | none => exact absurd (by rw [show x = "" from hs]) hu
    | some y => rw [show x = y from hs]

theorem idKey_collision_free (r r' : JobProgressRef) (u u' : Option String)
    (hu : u ≠ some "") (hu' : u' ≠ some "") (heq : idKey r u = idKey r' u') :
    r.SourceID = r'.SourceID ∧ r.JobID = r'.JobID ∧ u = u' := by
  have hd : (idKey r u).data = (idKey r' u').data := by rw [heq]
  rw [idKey_data, idKey_data] at hd
  rcases seg_inj _ _ _ _ (slash_not_mem_intDec _) (slash_not_mem_intDec _) hd with ⟨h1, hrest⟩
  rcases seg_inj _ _ _ _ (slash_not_mem_intDec _) (slash_not_mem_intDec _) hrest with ⟨h2, h3⟩
  exact ⟨intDec_inj _ _ h1, intDec_inj _ _ h2, unitStr_inj _ _ hu hu' h3⟩

theorem idKey_nil_strict (r : JobProgressRef) (u : String) (hu : u ≠ "") :
    (idKey r none).data <+: (idKey r (some u)).data ∧ idKey r none ≠ idKey r (some u) := by
  constructor
  · rw [idKey_data, idKey_data]
    exact ⟨u.data, by simp [unitStr]⟩
  · intro heq
    have hd : (idKey r none).data = (idKey r (some u)).data := by rw [heq]
    rw [idKey_data, idKey_data] at hd
    have h1 := List.append_cancel_left hd
    simp only [List.cons.injEq, true_and] at h1
    have h2 := List.append_cancel_left h1
    simp only [List.cons.injEq, true_and] at h2
    exact hu (str_ext u "" (by simp [unitStr] at h2; simp [h2.symm]))

theorem idKey_nil_not_prefix_other (r r' : JobProgressRef) (u' : Option String)
    (hne : r.SourceID ≠ r'.SourceID ∨ r.JobID ≠ r'.JobID) :
    ¬ (idKey r none).data <+: (idKey r' u').data := by
  intro hp
  rw [idKey_data, idKey_data] at hp
  rcases prefix_seg _ _ _ _ (slash_not_mem_intDec _) (slash_not_mem_intDec _) hp with ⟨h1, hp2⟩
  rcases prefix_seg _ _ _ _ (slash_not_mem_intDec _) (slash_not_mem_intDec _) hp2 with ⟨h2, _⟩
  rcases hne with hne | hne
  · exact hne (intDec_inj _ _ h1)
  · exact hne (intDec_inj _ _ h2)

theorem getAndModify_singleton (k : String) (m : UnitMetrics) (f : UnitMetrics → UnitMetrics)
    (cap : Nat) (lg : List (String × UnitMetrics)) :
    getAndModify { entries := [(k, m)], cap := cap, log := lg } k f =
      { entries := [(k, f m)], cap := cap, log := lg } := by
  have hfind : ([(k, m)].find? (fun e => e.1 == k)) = some (k, m) := by simp
  unfold getAndModify cacheGet
  rw [hfind]
  dsimp only
  unfold modifyValue
  simp

theorem reportChunk_singleton (ref : JobProgressRef) (unit : Option String) (c : Chunk)
    (m : UnitMetrics) (cap : Nat) (lg : List (String × UnitMetrics)) :
    ReportChunk { entries := [(idKey ref unit, m)], cap := cap, log := lg } ref unit c =
      { entries := [(idKey ref unit, incChunk c m)], cap := cap, log := lg } := by
  have hfind : ([(idKey ref unit, m)].find? (fun e => e.1 == idKey ref unit)) =
      some (idKey ref unit, m) := by simp
  unfold ReportChunk cacheGet
  dsimp only
  rw [hfind]
  dsimp only
  unfold modifyValue
  simp

theorem reportChunk_foldl_singleton (ref : JobProgressRef) (unit : Option String) :
    ∀ (cs : List Chunk) (m : UnitMetrics) (cap : Nat) (lg : List (String × UnitMetrics)),
      cs.foldl (fun h c => ReportChunk h ref unit c)
        { entries := [(idKey ref unit, m)], cap := cap, log := lg } =
      { entries := [(idKey ref unit,
          { m with TotalChunks := m.TotalChunks + cs.length,
                   TotalBytes := m.TotalBytes + chunksBytes cs })],
        cap := cap, log := lg } := by
  intro cs
  induction cs with
  | nil =>
    intro m cap lg
    simp [chunksBytes]
  | cons c cs ih =>
    intro m cap lg
    rw [List.foldl_cons, reportChunk_singleton, ih]
    simp only [incChunk, chunksBytes, List.map_cons, List.sum_cons, List.length_cons]
    simp [Nat.add_assoc, Nat.add_comm, Nat.add_left_comm]

theorem start_on_empty (ref : JobProgressRef) (unit : Option String) (T0 : Int)
    (cap : Nat) (lg : List (String × UnitMetrics)) (hcap : 1 ≤ cap) :
    StartUnitChunking { entries := [], cap := cap, log := lg } ref unit T0 =
      { entries := [(idKey ref unit,
          { Unit := unit, Parent := ref, StartTime := some T0, EndTime := none,
            TotalChunks := 0, TotalBytes := 0, Errors := [], handled := false })],
        cap := cap, log := lg } := by
  unfold StartUnitChunking cacheAdd
  simp
  omega

theorem unitMetricsRead_singleton_finished (k : String) (m : UnitMetrics)
    (cap : Nat) (lg : List (String × UnitMetrics)) (hfin : IsFinished m = true) :
    unitMetricsRead { entries := [(k, m)], cap := cap, log := lg } =
      ([m], { entries := [], cap := cap, log := lg }) := by
  have hfind : ([(k, m)].find? (fun e => e.1 == k)) = some (k, m) := by simp
  unfold unitMetricsRead cacheKeys
  simp only [List.map_cons, List.map_nil, List.reverse_cons, List.reverse_nil,
    List.nil_append, List.foldl_cons, List.foldl_nil]
  unfold drainStep cacheGet
  rw [hfind]
  dsimp only
  rw [if_pos hfin]
  unfold modifyValue cacheRemove fireEvict
  simp

/-! ### Claim theorems -/


/-- C1: for every sequence StartUnitChunking, then N ReportChunk calls on the
same (job, unit), then EndUnitChunking, with no eviction in between (automatic
here: no other operation runs), UnitMetrics() returns exactly one record with
TotalChunks = N, TotalBytes = the sum of payload lengths, StartTime = T0,
EndTime = T1 (hence ElapsedTime = T1 - T0), leaves the cache empty and emits
no diagnostic, and a second UnitMetrics() call returns no record for the key. -/
theorem claim_C1 (ref : JobProgressRef) (unit : Option String) (T0 T1 : Int) (cs : List Chunk) :
    ∃ m : UnitMetrics,
      unitMetricsRead (EndUnitChunking
          (cs.foldl (fun h c => ReportChunk h ref unit c)
            (StartUnitChunking NewUnitHook ref unit T0)) ref unit T1) =
        ([m], { entries := [], cap := 1024, log := [] }) ∧
      m.TotalChunks = cs.length ∧ m.TotalBytes = chunksBytes cs ∧
      m.StartTime = some T0 ∧ m.EndTime = some T1 ∧
      (∀ now : Int, ElapsedTime now m = T1 - T0) ∧
      (unitMetricsRead { entries := [], cap := 1024, log := [] }).1 = [] := by
  have hnew : NewUnitHook = { entries := [], cap := 1024, log := ([] : List (String × UnitMetrics)) } := rfl
  rw [hnew, start_on_empty ref unit T0 1024 [] (by omega), reportChunk_foldl_singleton]
  unfold EndUnitChunking
  rw [getAndModify_singleton]
  rw [unitMetricsRead_singleton_finished _ _ _ _ (by rfl)]
  exact ⟨_, rfl, by simp, by simp, rfl, rfl, fun now => rfl, rfl⟩

/-- C2: the eviction callback emits a diagnostic exactly when the evicted
value is not marked handled; the drain read (which marks entries handled
before removing them) never emits a diagnostic; and evicting an unfinished
entry by capacity pressure (capacity 1, two units started) emits one. -/
theorem claim_C2 :
    (∀ (h : UnitHook) (k : String) (v : UnitMetrics),
      (fireEvict h k v).log = h.log ++ (if v.handled then [] else [(k, v)])) ∧
    (∀ h : UnitHook, (unitMetricsRead h).2.log = h.log) ∧
    (StartUnitChunking (StartUnitChunking (mkUnitHook 1) ref0 (some "u1") 0) ref0 (some "u2") 1).log =
      [(idKey ref0 (some "u1"),
        { Unit := some "u1", Parent := ref0, StartTime := some 0, EndTime := none,
          TotalChunks := 0, TotalBytes := 0, Errors := [], handled := false })] := by
  refine ⟨log_fireEvict, log_unitMetricsRead, ?_⟩
  decide

/-- C3 as stated is false: `StartUnitChunking` on an already-resident key
overwrites the entry with a fresh record, resetting TotalChunks from 1 to 0
(and TotalBytes from 1 to 0) while the key stays resident. -/
theorem claim_C3_counterexample :
    (lookup (ReportChunk (StartUnitChunking (mkUnitHook 4) ref0 (some "u") 10)
        ref0 (some "u") (Chunk.mk [7])) (idKey ref0 (some "u"))).map
          (fun m => (m.TotalChunks, m.TotalBytes)) = some (1, 1) ∧
    (lookup (StartUnitChunking (ReportChunk (StartUnitChunking (mkUnitHook 4) ref0 (some "u") 10)
        ref0 (some "u") (Chunk.mk [7])) ref0 (some "u") 11) (idKey ref0 (some "u"))).map
          (fun m => (m.TotalChunks, m.TotalBytes)) = some (0, 0) := by
  decide

/-- C3 (amended): for every resident key, TotalChunks and TotalBytes never
decrease under any public operation other than StartUnitChunking (which
replaces the entry with a fresh zero-counter record). -/
theorem claim_C3_amended (h : UnitHook) (op : Op) (k : String) (m m' : UnitMetrics)
    (hop : op.isStart = false)
    (hb : lookup h k = some m) (ha : lookup (step h op) k = some m') :
    m.TotalChunks ≤ m'.TotalChunks ∧ m.TotalBytes ≤ m'.TotalBytes := by
  cases op with
  | start ref u t => simp [Op.isStart] at hop
  | endU ref u t =>
    simp only [step] at ha
    by_cases hk : k = idKey ref u
    · subst hk
      rw [lookup_End_self, hb, Option.map_some', Option.some.injEq] at ha
      subst ha
      exact ⟨Nat.le_refl _, Nat.le_refl _⟩
    · rw [lookup_End_ne _ _ _ _ _ hk, hb, Option.some.injEq] at ha
      subst ha
      exact ⟨Nat.le_refl _, Nat.le_refl _⟩
  | report ref u c =>
    simp only [step] at ha
    by_cases hk : k = idKey ref u
    · subst hk
      rw [lookup_Report_hit h ref u c m hb, Option.some.injEq] at ha
      subst ha
      exact ⟨Nat.le_add_right _ _, Nat.le_add_right _ _⟩
    · rcases lookup_Report_ne h ref u c k hk with h1 | h1
      · rw [h1, hb, Option.some.injEq] at ha
        subst ha
        exact ⟨Nat.le_refl _, Nat.le_refl _⟩
      · rw [h1] at ha
        exact Option.noConfusion ha
  | reportError ref e =>
    simp only [step] at ha
    rw [lookup_ReportError, hb, Option.map_some', Option.some.injEq] at ha
    subst ha
    exact ⟨Nat.le_refl _, Nat.le_refl _⟩
  | finish ref =>
    simp only [step] at ha
    rcases lookup_Finish_or h ref k with h1 | h1
    · rw [h1, hb, Option.some.injEq] at ha
      subst ha
      exact ⟨Nat.le_refl _, Nat.le_refl _⟩
    · rw [h1, hb, Option.map_some', Option.some.injEq] at ha
      subst ha
      exact ⟨Nat.le_refl _, Nat.le_refl _⟩
  | drain =>
    simp only [step] at ha
    rcases lookup_unitMetricsRead_or h k with h1 | h1
    · rw [h1, hb, Option.some.injEq] at ha
      subst ha
      exact ⟨Nat.le_refl _, Nat.le_refl _⟩
    · rw [h1] at ha
      exact Option.noConfusion ha

theorem claim_C3_witness :
    (Op.report ref0 (some "u") (Chunk.mk [9])).isStart = false ∧
    lookup hw (idKey ref0 (some "u")) = some m0 ∧
    lookup (step hw (Op.report ref0 (some "u") (Chunk.mk [9]))) (idKey ref0 (some "u")) =
      some (incChunk (Chunk.mk [9]) m0) ∧
    (m0.TotalChunks ≤ (incChunk (Chunk.mk [9]) m0).TotalChunks ∧
      m0.TotalBytes ≤ (incChunk (Chunk.mk [9]) m0).TotalBytes) :=
  ⟨by decide, by decide, by decide,
    claim_C3_amended hw (Op.report ref0 (some "u") (Chunk.mk [9])) (idKey ref0 (some "u"))
      m0 (incChunk (Chunk.mk [9]) m0) (by decide) (by decide) (by decide)⟩

/-- C4 as stated is false: `Finish` overwrites a nil-unit entry's end time
with the job snapshot's end time, clearing an already-set end time when the
snapshot has none; and `EndUnitChunking` stores whatever time the caller
passes, so the end time can be earlier than the start time. -/
theorem claim_C4_counterexample :
    (lookup (EndUnitChunking (StartUnitChunking (mkUnitHook 4) refNoEnd none 10)
        refNoEnd none 20) (idKey refNoEnd none)).map (fun m => m.EndTime) = some (some 20) ∧
    (lookup (Finish (EndUnitChunking (StartUnitChunking (mkUnitHook 4) refNoEnd none 10)
        refNoEnd none 20) refNoEnd) (idKey refNoEnd none)).map (fun m => m.EndTime) =
      some none ∧
    (lookup (EndUnitChunking (StartUnitChunking (mkUnitHook 4) refNoEnd none 10)
        refNoEnd none 5) (idKey refNoEnd none)).map (fun m => (m.StartTime, m.EndTime)) =
      some (some 10, some 5) := by
  decide

/-- C4 (amended): for every resident key, an end time that has been set stays
set under every public operation other than StartUnitChunking (which replaces
the entry) and Finish (which overwrites a nil-unit entry's end time from the
possibly-unfinished job snapshot); no operation compares end time with start
time. -/
theorem claim_C4_amended (h : UnitHook) (op : Op) (k : String) (m m' : UnitMetrics)
    (hs : op.isStart = false) (hf : op.isFinish = false)
    (hb : lookup h k = some m) (ha : lookup (step h op) k = some m')
    (he : m.EndTime.isSome = true) : m'.EndTime.isSome = true := by
  cases op with
  | start ref u t => simp [Op.isStart] at hs
  | finish ref => simp [Op.isFinish] at hf
  | endU ref u t =>
    simp only [step] at ha
    by_cases hk : k = idKey ref u
    · subst hk
      rw [lookup_End_self, hb, Option.map_some', Option.some.injEq] at ha
      subst ha
      rfl
    · rw [lookup_End_ne _ _ _ _ _ hk, hb, Option.some.injEq] at ha
      subst ha
      exact he
  | report ref u c =>
    simp only [step] at ha
    by_cases hk : k = idKey ref u
    · subst hk
      rw [lookup_Report_hit h ref u c m hb, Option.some.injEq] at ha
      subst ha
      exact he
    · rcases lookup_Report_ne h ref u c k hk with h1 | h1
      · rw [h1, hb, Option.some.injEq] at ha
        subst ha
        exact he
      · rw [h1] at ha
        exact Option.noConfusion ha
  | reportError ref e =>
    simp only [step] at ha
    rw [lookup_ReportError, hb, Option.map_some', Option.some.injEq] at ha
    subst ha
    exact he
  | drain =>
    simp only [step] at ha
    rcases lookup_unitMetricsRead_or h k with h1 | h1
    · rw [h1, hb, Option.some.injEq] at ha
      subst ha
      exact he
    · rw [h1] at ha
      exact Option.noConfusion ha

theorem claim_C4_witness :
    (Op.report ref0 (some "u") (Chunk.mk [9])).isStart = false ∧
    (Op.report ref0 (some "u") (Chunk.mk [9])).isFinish = false ∧
    lookup hwE (idKey ref0 (some "u")) = some m1 ∧
    lookup (step hwE (Op.report ref0 (some "u") (Chunk.mk [9]))) (idKey ref0 (some "u")) =
      some (incChunk (Chunk.mk [9]) m1) ∧
    m1.EndTime.isSome = true ∧
    (incChunk (Chunk.mk [9]) m1).EndTime.isSome = true :=
  ⟨by decide, by decide, by decide, by decide, by decide,
    claim_C4_amended hwE (Op.report ref0 (some "u") (Chunk.mk [9])) (idKey ref0 (some "u"))
      m1 (incChunk (Chunk.mk [9]) m1) (by decide) (by decide) (by decide) (by decide) (by decide)⟩

/-- C5: at every key, ReportError appends the error `errHits` times: once at
the job's nil-unit key when resident, plus once at the wrapped unit's key
when the error is a ChunkError and that entry is resident; absent entries
stay absent (the unit-scoped append is silently skipped), and every other
key is untouched. -/
theorem claim_C5 (h : UnitHook) (ref : JobProgressRef) (err : Err) (k : String) :
    lookup (ReportError h ref err) k =
      (lookup h k).map
        (fun m => { m with Errors := m.Errors ++ List.replicate (errHits ref err k) err }) :=
  lookup_ReportError h ref err k

/-- C6: ReportChunk with a nil unit and an absent key creates a synthetic
entry whose start time is the job snapshot's start time and counts the chunk
into it, even though StartUnitChunking was never called for the key. -/
theorem claim_C6 (h : UnitHook) (ref : JobProgressRef) (c : Chunk)
    (hmiss : lookup h (idKey ref none) = none) (hcap : 1 ≤ h.cap) :
    lookup (ReportChunk h ref none c) (idKey ref none) =
      some { Unit := none, Parent := ref, StartTime := ref.snapshot.StartTime,
             EndTime := none, TotalChunks := 1, TotalBytes := c.Data.length,
             Errors := [], handled := false } :=
  lookup_Report_synthetic h ref c hmiss hcap

theorem claim_C6_witness :
    lookup (mkUnitHook 1024) (idKey ref0 none) = none ∧
    1 ≤ (mkUnitHook 1024).cap ∧
    lookup (ReportChunk (mkUnitHook 1024) ref0 none (Chunk.mk [5, 6])) (idKey ref0 none) =
      some { Unit := none, Parent := ref0, StartTime := ref0.snapshot.StartTime,
             EndTime := none, TotalChunks := 1, TotalBytes := 2,
             Errors := [], handled := false } :=
  ⟨by decide, by decide, claim_C6 (mkUnitHook 1024) ref0 (Chunk.mk [5, 6]) (by decide) (by decide)⟩

/-- C7: after Finish, a resident nil-unit entry's start time, end time and
error list equal the job snapshot's values exactly. -/
theorem claim_C7 (h : UnitHook) (ref : JobProgressRef) (m : UnitMetrics)
    (hm : lookup h (idKey ref none) = some m) (hu : m.Unit = none) :
    lookup (Finish h ref) (idKey ref none) =
      some { m with StartTime := ref.snapshot.StartTime, EndTime := ref.snapshot.EndTime,
                    Errors := ref.snapshot.Errors } :=
  lookup_Finish_done h ref m hm hu

theorem claim_C7_witness :
    lookup hwN (idKey ref0 none) = some mNil ∧
    mNil.Unit = none ∧
    lookup (Finish hwN ref0) (idKey ref0 none) =
      some { mNil with StartTime := ref0.snapshot.StartTime, EndTime := ref0.snapshot.EndTime,
                       Errors := ref0.snapshot.Errors } :=
  ⟨by decide, by decide, claim_C7 hwN ref0 mNil (by decide) (by decide)⟩

/-- C8: operations on a missing entry degrade to a no-op with no failure:
EndUnitChunking on an absent key returns the state unchanged, and ReportChunk
with a non-nil unit whose key is absent returns the state unchanged (no entry
created, nothing mutated, no error signalled — the operations are total). -/
theorem claim_C8 (h : UnitHook) (ref : JobProgressRef) (unit : Option String) (t : Int)
    (uid : String) (c : Chunk)
    (h1 : lookup h (idKey ref unit) = none)
    (h2 : lookup h (idKey ref (some uid)) = none) :
    EndUnitChunking h ref unit t = h ∧ ReportChunk h ref (some uid) c = h := by
  constructor
  · unfold EndUnitChunking getAndModify
    rw [cacheGet_eq, h1, cacheGet_snd_of_miss h _ h1]
  · unfold ReportChunk
    dsimp only
    rw [cacheGet_eq, h2, cacheGet_snd_of_miss h _ h2]

theorem claim_C8_witness :
    lookup (mkUnitHook 8) (idKey ref0 (some "v")) = none ∧
    lookup (mkUnitHook 8) (idKey ref0 (some "w")) = none ∧
    (EndUnitChunking (mkUnitHook 8) ref0 (some "v") 5 = mkUnitHook 8 ∧
      ReportChunk (mkUnitHook 8) ref0 (some "w") (Chunk.mk [1]) = mkUnitHook 8) :=
  ⟨by decide, by decide,
    claim_C8 (mkUnitHook 8) ref0 (some "v") 5 "w" (Chunk.mk [1]) (by decide) (by decide)⟩

/-- C9 as stated is false: the key derivation maps the distinct triples
(source 1, job 2, absent unit) and (source 1, job 2, unit with empty id) to
the same key, so distinct triples do not always get distinct keys (and the
nil-unit key is not a STRICT prefix of that unit key, being equal to it). -/
theorem claim_C9_counterexample :
    idKey ref0 none = idKey ref0 (some "") ∧ (none : Option String) ≠ some "" := by
  decide

/-- C9 (amended): the key derivation is pure and deterministic; provided a
present unit's id is nonempty, distinct (source id, job id, unit-or-absent)
triples map to distinct keys; the job's nil-unit key is a strict prefix of
every key of a nonempty-id unit of the same job, and a prefix of no key of a
different job. -/
theorem claim_C9_amended :
    (∀ (r r' : JobProgressRef) (u u' : Option String), u ≠ some "" → u' ≠ some "" →
      idKey r u = idKey r' u' →
      r.SourceID = r'.SourceID ∧ r.JobID = r'.JobID ∧ u = u') ∧
    (∀ (r : JobProgressRef) (u : String), u ≠ "" →
      (idKey r none).data <+: (idKey r (some u)).data ∧ idKey r none ≠ idKey r (some u)) ∧
    (∀ (r r' : JobProgressRef) (u' : Option String),
      r.SourceID ≠ r'.SourceID ∨ r.JobID ≠ r'.JobID →
      ¬ (idKey r none).data <+: (idKey r' u').data) :=
  ⟨fun r r' u u' hu hu' heq => idKey_collision_free r r' u u' hu hu' heq,
    fun r u hu => idKey_nil_strict r u hu,
    fun r r' u' hne => idKey_nil_not_prefix_other r r' u' hne⟩

theorem claim_C9_witness :
    (ref0.SourceID = ref0.SourceID ∧ ref0.JobID = ref0.JobID ∧
      (some "a" : Option String) = some "a") ∧
    ((idKey ref0 none).data <+: (idKey ref0 (some "a")).data ∧
      idKey ref0 none ≠ idKey ref0 (some "a")) ∧
    ¬ (idKey ref0 none).data <+: (idKey refB none).data :=
  ⟨claim_C9_amended.1 ref0 ref0 (some "a") (some "a") (by decide) (by decide) rfl,
    claim_C9_amended.2.1 ref0 "a" (by decide),
    claim_C9_amended.2.2 ref0 refB none (by decide)⟩

/-- C10: a ChunkError wrapping a nil unit resolves to the job's own nil-unit
key, so one ReportError call appends the same error twice to that single
resident entry. -/
theorem claim_C10 (h : UnitHook) (ref : JobProgressRef) (msg : String) (m : UnitMetrics)
    (hm : lookup h (idKey ref none) = some m) :
    lookup (ReportError h ref (Err.chunkError none msg)) (idKey ref none) =
      some { m with Errors := m.Errors ++
        [Err.chunkError none msg, Err.chunkError none msg] } := by
  rw [lookup_ReportError, hm]
  have hhits : errHits ref (Err.chunkError none msg) (idKey ref none) = 2 := by
    unfold errHits chunkErrUnit
    simp
  simp only [hhits, Option.map_some']
  rfl

theorem claim_C10_witness :
    lookup hwN (idKey ref0 none) = some mNil ∧
    lookup (ReportError hwN ref0 (Err.chunkError none "e")) (idKey ref0 none) =
      some { mNil with Errors := mNil.Errors ++
        [Err.chunkError none "e", Err.chunkError none "e"] } :=
  ⟨by decide, claim_C10 hwN ref0 "e" mNil (by decide)⟩

end TruffleHog
